import Mathlib

/-!
Verification of the Power Rabi (E→F) calibration script
(`calibrations/15b_Power_Rabi_E_to_F.py`) and the `cr_correction_phase`
analysis layer (`calibration_utils/cr_correction_phase/analysis.py`).

The QUA program is embedded as a list of instructions per amplitude-sweep
point, with a small interpreter tracking per-channel intermediate
frequencies.  Stream processing (`buffer(len(amps)).average()`) is embedded
over rational-valued streams.  The fit post-processing (phase adjustment,
amplitude factor, clamping) is embedded over the reals since it involves π.
-/

/-- Static configuration of one qubit, as read from the QuAM state:
XY channel name, resonator channel name, their intermediate frequencies,
the `GEF_frequency_shift` attribute and the anharmonicity. -/
structure QubitCfg where
  xyName : String
  resName : String
  xyIF : ℤ
  resIF : ℤ
  gefShift : ℤ
  anharmonicity : ℤ
deriving DecidableEq, Repr

/-- A QUA instruction as emitted by the body of the amplitude sweep loop:
frequency updates, pulse plays (with an optional amplitude scale pre-factor),
align, resonator measurement, stream saves and waits. -/
inductive Instr where
  | updateFrequency (ch : String) (f : ℤ)
  | play (ch : String) (op : String) (scale : Option ℚ)
  | align
  | measure (ch : String) (pulse : String)
  | saveI
  | saveQ
  | wait (ch : String) (t : ℕ)
deriving DecidableEq, Repr

/-- The instructions emitted for one amplitude-sweep point `a`
(lines 103–121 of `15b_Power_Rabi_E_to_F.py`): update the resonator
frequency, reset the XY frequency, play the operation, shift the XY
frequency down by the anharmonicity, play the amplitude-scaled operation,
align, measure the resonator, save I and Q, wait for thermalization. -/
def ampPointBody (q : QubitCfg) (operation : String) (a : ℚ) (therm : ℕ) :
    List Instr :=
  [ Instr.updateFrequency q.resName (q.resIF + q.gefShift),
    Instr.updateFrequency q.xyName q.xyIF,
    Instr.play q.xyName operation none,
    Instr.updateFrequency q.xyName (q.xyIF - q.anharmonicity),
    Instr.play q.xyName operation (some a),
    Instr.align,
    Instr.measure q.resName ("readout"),
    Instr.saveI,
    Instr.saveQ,
    Instr.wait q.resName therm ]

/-- Interpreter tracking the intermediate frequency of each channel:
returns every play event together with the channel, the operation,
the frequency in force at play time, and the amplitude scale. -/
def playsWithFreq (freq : String → ℤ) : List Instr →
    List (String × String × ℤ × Option ℚ)
  | [] => []
  | Instr.updateFrequency ch f :: rest =>
      playsWithFreq (fun c => if c = ch then f else freq c) rest
  | Instr.play ch op s :: rest => (ch, op, freq ch, s) :: playsWithFreq freq rest
  | _ :: rest => playsWithFreq freq rest

/-- Number of plays of the amplitude-scaled pulse (a `play` with an
amplitude-scale pre-factor) in an instruction list. -/
def countScaledPlays : List Instr → ℕ
  | [] => 0
  | Instr.play _ _ (some _) :: rest => 1 + countScaledPlays rest
  | _ :: rest => countScaledPlays rest

/-- Number of `save(I, I_st)` instructions in an instruction list. -/
def countSaveI : List Instr → ℕ
  | [] => 0
  | Instr.saveI :: rest => 1 + countSaveI rest
  | _ :: rest => countSaveI rest

/-- The amplitude pre-factor sweep
`np.arange(min_amp_factor, max_amp_factor, amp_factor_step)`
(lines 86–90): the values `start + k·step` for `0 ≤ k < ⌈(stop−start)/step⌉`.
`np.arange` raises for a zero step; that case is modelled as the empty
sweep. -/
def amps (minAmpFactor maxAmpFactor ampFactorStep : ℚ) : List ℚ :=
  if ampFactorStep = 0 then []
  else
    (List.range (⌈(maxAmpFactor - minAmpFactor) / ampFactorStep⌉.toNat)).map
      (fun (k : ℕ) => minAmpFactor + (k : ℚ) * ampFactorStep)

/-- The order in which `save(I[i], I_st[i])` feeds the stream: the amplitude
loop is the inner loop, the averaging loop the outer one, with one save per
amplitude point, so the raw stream is the row-major flattening of
`v n j` = value saved during averaging iteration `n` at sweep point `j`. -/
def streamOrder (N K : ℕ) (v : ℕ → ℕ → ℚ) : List ℚ :=
  ((List.range N).map (fun n => (List.range K).map (fun j => v n j))).flatten

/-- `buffer(k)` of stream processing: regroups the flat stream into
consecutive chunks of `k` values. -/
def buffer (k : ℕ) (xs : List ℚ) : List (List ℚ) :=
  if h : k = 0 ∨ xs = [] then [] else xs.take k :: buffer k (xs.drop k)
termination_by xs.length
decreasing_by
  push_neg at h
  have hx := List.length_pos.mpr h.2
  simp only [List.length_drop]
  omega

/-- `.average()` of stream processing applied to a stream of buffers:
the element-wise average over all buffers (one output value per position
of the first buffer). -/
def averageBuffers (ls : List (List ℚ)) : List ℚ :=
  match ls with
  | [] => []
  | r :: _ =>
      (List.range r.length).map
        (fun j => (ls.map (fun row => row.getD j 0)).sum / (ls.length : ℚ))

/-- The phase adjustment `phi_fit - np.pi * (phi_fit > np.pi / 2)`
(line 188), with NumPy's boolean arithmetic modelled by an indicator. -/
noncomputable def adjPhi (phi : ℝ) : ℝ :=
  phi - Real.pi * (if phi > Real.pi / 2 then 1 else 0)

/-- The amplitude factor for the |e⟩→|f⟩ pi pulse,
`1.0 * (np.pi - phi_fit) / (2 * np.pi * f_fit)` applied to the adjusted
phase (line 190). -/
noncomputable def factor (f phi : ℝ) : ℝ :=
  1.0 * (Real.pi - adjPhi phi) / (2 * Real.pi * f)

/-- The candidate calibrated |e⟩→|f⟩ pi pulse absolute amplitude,
`q.xy.operations[operation].amplitude * factor` (line 192). -/
noncomputable def new_pi_amp (amp f phi : ℝ) : ℝ :=
  amp * factor f phi

/-- The stored `fit_results[q.name]["Pi_amplitude"]` (lines 193–203):
the candidate amplitude when its absolute value is below 0.3, and the
clamp value 0.3 otherwise. -/
noncomputable def piAmplitude (amp f phi : ℝ) : ℝ :=
  if |new_pi_amp amp f phi| < 0.3 then new_pi_amp amp f phi else 0.3

/-- `FitParameters` of `cr_correction_phase/analysis.py` (lines 14–19):
the record holds nothing but a success flag. -/
structure FitParameters where
  success : Bool
deriving DecidableEq, Repr

/-- A dataset: named data variables (flattened rational traces) and the
`qubit_pair` coordinate values. -/
structure Dataset where
  dataVars : List (String × List ℚ)
  qubitPairs : List String
deriving DecidableEq, Repr

/-- `ds.assign({col.replace("state", "bloch"): -2 * ds[col] + 1 ...})`
(lines 63–67): adds, for every data variable whose name contains "state",
a variable named with "state" replaced by "bloch" holding `-2·x + 1`. -/
def assignBloch (ds : Dataset) : Dataset :=
  { ds with
    dataVars :=
      ds.dataVars ++
        (ds.dataVars.filter (fun p => 1 < (p.1.splitOn ("state")).length)).map
          (fun p =>
            (p.1.replace ("state") ("bloch"), p.2.map (fun x => -2 * x + 1))) }

/-- `_extract_relevant_fit_parameters` (lines 74–84): returns the dataset
unchanged together with `FitParameters(success=True)` for every qubit
pair. -/
def _extract_relevant_fit_parameters (fit : Dataset) :
    Dataset × List (String × FitParameters) :=
  (fit, fit.qubitPairs.map (fun qp => (qp, { success := true })))

/-- `fit_raw_data` (lines 46–71): assigns the bloch variables and extracts
the fit parameters. -/
def fit_raw_data (ds : Dataset) : Dataset × List (String × FitParameters) :=
  _extract_relevant_fit_parameters (assignBloch ds)

/-- An XY-channel operation, with the fields the update step reads and
writes (`pulses.DragCosinePulse`). -/
structure DragCosinePulse where
  amplitude : ℝ
  alpha : ℝ
  anharmonicity : ℝ
  length : ℕ
  axis_angle : ℝ
  digital_marker : String

/-- The `pulses.DragCosinePulse(...)` constructed at lines 227–234: the
fitted amplitude, `axis_angle=0`, and the remaining fields copied from the
base operation. -/
def mkEFDragPulse (piAmp : ℝ) (base : DragCosinePulse) : DragCosinePulse :=
  { amplitude := piAmp, alpha := base.alpha, anharmonicity := base.anharmonicity,
    length := base.length, axis_angle := 0, digital_marker := base.digital_marker }

/-- The per-qubit state update (lines 223–240): if `"EF_" ++ operation` is
absent from the operations dict, append a new drag pulse built from the base
operation (`none` when the base operation itself is missing, where Python
would raise); otherwise overwrite the amplitude of the existing entry. -/
def updateEFOperation (operation : String) (piAmp : ℝ)
    (ops : List (String × DragCosinePulse)) :
    Option (List (String × DragCosinePulse)) :=
  let efName := "EF_" ++ operation
  match List.lookup efName ops with
  | some _ =>
      some (ops.map (fun p =>
        if p.1 = efName then (p.1, { p.2 with amplitude := piAmp }) else p))
  | none =>
      (List.lookup operation ops).map
        (fun base => ops ++ [(efName, mkEFDragPulse piAmp base)])

/-- The loop `for q in qubits` of the update step: apply the per-qubit
update to every qubit's operations dict. -/
def updateMachine (operation : String) (piAmp : String → ℝ)
    (m : List (String × List (String × DragCosinePulse))) :
    Option (List (String × List (String × DragCosinePulse))) :=
  m.mapM (fun q =>
    (updateEFOperation operation (piAmp q.1) q.2).map (fun ops2 => (q.1, ops2)))

/-- The machine state seen by the script tail: the per-qubit operation
dicts, and whether `node.save()` has run. -/
structure NodeState where
  machine : List (String × List (String × DragCosinePulse))
  saved : Bool

/-- The whole update-and-save tail (lines 222–246): update every qubit's
operations, then save the node. -/
def runUpdateAndSave (operation : String) (piAmp : String → ℝ)
    (st : NodeState) : Option NodeState :=
  (updateMachine operation piAmp st.machine).map
    (fun m2 => { machine := m2, saved := true })

/-- Unfolding `List.lookup` at a hit. -/
lemma lookup_cons_self {β : Type} (a : String) (v : β)
    (tl : List (String × β)) : List.lookup a ((a, v) :: tl) = some v := by
  simp [List.lookup]

/-- Unfolding `List.lookup` at a miss. -/
lemma lookup_cons_ne {β : Type} (a k : String) (v : β)
    (tl : List (String × β)) (h : a ≠ k) :
    List.lookup a ((k, v) :: tl) = List.lookup a tl := by
  rw [List.lookup, beq_false_of_ne h]

/-- Looking up a key after overwriting the amplitude of every entry with
that key yields the amplitude-overwritten value. -/
lemma lookup_map_set (efName : String) (amp : ℝ)
    (ops : List (String × DragCosinePulse)) (o : DragCosinePulse)
    (h : List.lookup efName ops = some o) :
    List.lookup efName
      (ops.map (fun p =>
        if p.1 = efName then (p.1, { p.2 with amplitude := amp }) else p)) =
      some { o with amplitude := amp } := by
  induction ops with
  | nil => simp [List.lookup] at h
  | cons hd tl ih =>
    obtain ⟨k, v⟩ := hd
    by_cases hc : efName = k
    · subst hc
      rw [lookup_cons_self] at h
      obtain rfl := Option.some.inj h
      rw [List.map_cons, if_pos rfl]
      exact lookup_cons_self _ _ _
    · rw [lookup_cons_ne _ _ _ _ hc] at h
      rw [List.map_cons, if_neg (fun he => hc he.symm), lookup_cons_ne _ _ _ _ hc]
      exact ih h

/-- Looking up a key absent from a list finds the entry appended for it. -/
lemma lookup_append_right {β : Type} (a : String) (l : List (String × β))
    (d : β) (h : List.lookup a l = none) :
    List.lookup a (l ++ [(a, d)]) = some d := by
  induction l with
  | nil =>
    rw [List.nil_append]
    exact lookup_cons_self _ _ _
  | cons hd tl ih =>
    obtain ⟨k, v⟩ := hd
    by_cases hc : a = k
    · subst hc
      rw [lookup_cons_self] at h
      exact absurd h (by simp)
    · rw [lookup_cons_ne _ _ _ _ hc] at h
      rw [List.cons_append, lookup_cons_ne _ _ _ _ hc]
      exact ih h

/-- After a successful per-qubit update, the operations dict maps
`"EF_" ++ operation` to an operation whose amplitude is the fitted one. -/
lemma updateEFOperation_amplitude (operation : String) (amp : ℝ)
    (ops ops2 : List (String × DragCosinePulse))
    (h : updateEFOperation operation amp ops = some ops2) :
    ∃ o, List.lookup ("EF_" ++ operation) ops2 = some o ∧
      o.amplitude = amp := by
  simp only [updateEFOperation] at h
  cases hl : List.lookup ("EF_" ++ operation) ops with
  | some p =>
    rw [hl] at h
    obtain rfl := Option.some.inj h
    exact ⟨_, lookup_map_set _ amp ops p hl, rfl⟩
  | none =>
    rw [hl] at h
    cases hb : List.lookup operation ops with
    | none =>
      rw [hb] at h
      simp at h
    | some base =>
      rw [hb] at h
      obtain rfl : ops ++ [("EF_" ++ operation, mkEFDragPulse amp base)] = ops2 :=
        Option.some.inj h
      exact ⟨mkEFDragPulse amp base, lookup_append_right _ ops _ hl, rfl⟩

/-- Every element of the result of a successful `Option`-valued `mapM`
comes from an element of the input list. -/
lemma mapM_option_mem {α β : Type} (f : α → Option β) :
    ∀ (l : List α) (l2 : List β), l.mapM f = some l2 →
      ∀ b ∈ l2, ∃ a ∈ l, f a = some b := by
  intro l
  induction l with
  | nil =>
    intro l2 h b hb
    simp only [List.mapM_nil, Option.pure_def, Option.some.injEq] at h
    subst h
    simp at hb
  | cons hd tl ih =>
    intro l2 h b hb
    rw [List.mapM_cons] at h
    cases hf : f hd with
    | none =>
      rw [hf] at h
      simp at h
    | some v =>
      rw [hf] at h
      cases ht : tl.mapM f with
      | none =>
        rw [ht] at h
        simp at h
      | some t2 =>
        rw [ht] at h
        simp at h
        subst h
        rcases List.mem_cons.mp hb with rfl | hmem
        · exact ⟨hd, List.mem_cons_self hd tl, hf⟩
        · obtain ⟨a, ha, hfa⟩ := ih t2 ht b hmem
          exact ⟨a, List.mem_cons_of_mem hd ha, hfa⟩

/-- Every per-qubit entry of a successfully updated machine stems from a
qubit of the input machine via a successful per-qubit update. -/
lemma updateMachine_mem (operation : String) (piAmp : String → ℝ)
    (m m2 : List (String × List (String × DragCosinePulse)))
    (h : updateMachine operation piAmp m = some m2) :
    ∀ q2 ∈ m2, ∃ ops1, (q2.1, ops1) ∈ m ∧
      updateEFOperation operation (piAmp q2.1) ops1 = some q2.2 := by
  intro q2 hq2
  obtain ⟨a, ha, hfa⟩ := mapM_option_mem _ m m2 h q2 hq2
  cases hu : updateEFOperation operation (piAmp a.1) a.2 with
  | none =>
    rw [hu] at hfa
    simp at hfa
  | some ops2 =>
    rw [hu] at hfa
    have hq : q2 = (a.1, ops2) := by
      simpa using hfa.symm
    subst hq
    exact ⟨a.2, by simpa using ha, hu⟩

/-- C5: after the analysis tail runs successfully, the node state is
saved, and for every qubit of the updated machine the operations dict maps
`"EF_" ++ operation` to an operation whose amplitude equals that qubit's
fitted (possibly clamped) Pi_amplitude — appended as a new drag pulse when
absent, amplitude-overwritten when present. -/
theorem runUpdateAndSave_sets_amplitude (operation : String)
    (piAmp : String → ℝ) (st st2 : NodeState)
    (h : runUpdateAndSave operation piAmp st = some st2) :
    st2.saved = true ∧
    ∀ q2 ∈ st2.machine, ∃ o,
      List.lookup ("EF_" ++ operation) q2.2 = some o ∧
      o.amplitude = piAmp q2.1 := by
  rw [runUpdateAndSave] at h
  cases hm : updateMachine operation piAmp st.machine with
  | none =>
    rw [hm] at h
    simp at h
  | some m2 =>
    rw [hm] at h
    have hst : st2 = { machine := m2, saved := true } := by
      simpa using h.symm
    subst hst
    refine ⟨rfl, ?_⟩
    intro q2 hq2
    obtain ⟨ops1, _, hup⟩ :=
      updateMachine_mem operation piAmp st.machine m2 hm q2 hq2
    exact updateEFOperation_amplitude operation (piAmp q2.1) ops1 q2.2 hup

/-- Witness for `runUpdateAndSave_sets_amplitude`: one qubit `q1` whose
dict holds only `x180`; the update appends `EF_x180` with the fitted
amplitude 1/5 and saves. -/
theorem runUpdateAndSave_witness :
    runUpdateAndSave ("x180") (fun _ => (1:ℝ)/5)
        (NodeState.mk
          [(("q1"), [(("x180"), DragCosinePulse.mk (1/10) 2 3 4 5 ("ON"))])]
          false) =
      some (NodeState.mk
        [(("q1"),
          [(("x180"), DragCosinePulse.mk (1/10) 2 3 4 5 ("ON")),
           (("EF_x180"), DragCosinePulse.mk (1/5) 2 3 4 0 ("ON"))])]
        true) ∧
    ((NodeState.mk
      [(("q1"),
        [(("x180"), DragCosinePulse.mk (1/10) 2 3 4 5 ("ON")),
         (("EF_x180"), DragCosinePulse.mk (1/5) 2 3 4 0 ("ON"))])]
      true).saved = true ∧
    ∀ q2 ∈ (NodeState.mk
      [(("q1"),
        [(("x180"), DragCosinePulse.mk (1/10) 2 3 4 5 ("ON")),
         (("EF_x180"), DragCosinePulse.mk (1/5) 2 3 4 0 ("ON"))])]
      true).machine, ∃ o,
      List.lookup ("EF_" ++ "x180") q2.2 = some o ∧
      o.amplitude = (fun _ => (1:ℝ)/5) q2.1) := by
  have h : runUpdateAndSave ("x180") (fun _ => (1:ℝ)/5)
      (NodeState.mk
        [(("q1"), [(("x180"), DragCosinePulse.mk (1/10) 2 3 4 5 ("ON"))])]
        false) =
      some (NodeState.mk
        [(("q1"),
          [(("x180"), DragCosinePulse.mk (1/10) 2 3 4 5 ("ON")),
           (("EF_x180"), DragCosinePulse.mk (1/5) 2 3 4 0 ("ON"))])]
        true) := rfl
  exact ⟨h, runUpdateAndSave_sets_amplitude _ _ _ _ h⟩

/-- C1: contrary to the claim (and to the script's own docstring, which
announces repeated execution of the qubit pulse `N` times for a swept
number of pulses), the body executed for each amplitude-sweep point plays
the amplitude-scaled qubit pulse exactly once before the readout: the
declared pulse-count variables `npi` and `count` are never used. -/
theorem ampPointBody_single_scaled_play (q : QubitCfg) (operation : String)
    (a : ℚ) (therm : ℕ) :
    countScaledPlays (ampPointBody q operation a therm) = 1 := rfl

/-- C6: for every amplitude-sweep point, the body plays the operation at
the qubit's native XY intermediate frequency, then plays the
amplitude-scaled operation at the frequency shifted down by the
anharmonicity, and the scaled play is immediately followed by an align and
the resonator readout measurement. -/
theorem ampPointBody_sequence (q : QubitCfg) (operation : String) (a : ℚ)
    (therm : ℕ) (freq0 : String → ℤ) :
    playsWithFreq freq0 (ampPointBody q operation a therm) =
      [(q.xyName, operation, q.xyIF, none),
       (q.xyName, operation, q.xyIF - q.anharmonicity, some a)] ∧
    List.IsInfix
      [Instr.play q.xyName operation (some a), Instr.align,
       Instr.measure q.resName ("readout")]
      (ampPointBody q operation a therm) := by
  constructor
  · simp [ampPointBody, playsWithFreq]
  · exact ⟨[Instr.updateFrequency q.resName (q.resIF + q.gefShift),
            Instr.updateFrequency q.xyName q.xyIF,
            Instr.play q.xyName operation none,
            Instr.updateFrequency q.xyName (q.xyIF - q.anharmonicity)],
           [Instr.saveI, Instr.saveQ, Instr.wait q.resName therm], rfl⟩

/-- C10 counterexample: with `min_amp_factor = 0`, `max_amp_factor = 5`,
`amp_factor_step = 1`, the sweep contains the pre-factor 4, which is
outside the hardware range [-2, 2). -/
theorem amps_counterexample :
    (4:ℚ) ∈ amps 0 5 1 ∧ ¬((-2:ℚ) ≤ 4 ∧ (4:ℚ) < 2) := by
  constructor
  · have h : (⌈((5:ℚ) - 0) / 1⌉).toNat = 5 := by norm_num; rfl
    rw [amps, if_neg (by norm_num : (1:ℚ) ≠ 0), h]
    norm_num [List.range_succ]
  · norm_num

/-- C10 amended: the sweep values are only guaranteed to lie in
`[min_amp_factor, max_amp_factor)`; when the step is positive,
`-2 ≤ min_amp_factor` and `max_amp_factor ≤ 2`, every generated amplitude
pre-factor lies within [-2, 2). Nothing in the code enforces this for
other parameter settings. -/
theorem amps_within_range (minA maxA step : ℚ) (hstep : 0 < step)
    (hmin : -2 ≤ minA) (hmax : maxA ≤ 2) :
    ∀ x ∈ amps minA maxA step, -2 ≤ x ∧ x < 2 := by
  intro x hx
  rw [amps, if_neg (ne_of_gt hstep)] at hx
  rcases List.mem_map.mp hx with ⟨k, hk, hxe⟩
  rw [List.mem_range] at hk
  subst hxe
  constructor
  · have hks : (0:ℚ) ≤ (k:ℚ) * step :=
      mul_nonneg (by positivity) (le_of_lt hstep)
    linarith
  · have hklt : (k:ℤ) < ⌈(maxA - minA) / step⌉ := by omega
    have hq : (k:ℚ) < (maxA - minA) / step := by
      have h2 := Int.lt_ceil.mp hklt
      exact_mod_cast h2
    rw [lt_div_iff₀ hstep] at hq
    linarith

/-- Witness for `amps_within_range` at `min = 0`, `max = 1`, `step = 1/2`,
sweep value `1/2`. -/
theorem amps_within_range_witness :
    ((0:ℚ) < 1/2 ∧ (-2:ℚ) ≤ 0 ∧ (1:ℚ) ≤ 2) ∧
      ((-2:ℚ) ≤ 1/2 ∧ (1/2:ℚ) < 2) := by
  refine ⟨by norm_num,
    amps_within_range 0 1 (1/2) (by norm_num) (by norm_num) (by norm_num)
      (1/2) ?_⟩
  have h : (⌈((1:ℚ) - 0) / (1/2)⌉).toNat = 2 := by norm_num; rfl
  rw [amps, if_neg (by norm_num : (1/2:ℚ) ≠ 0), h]
  norm_num [List.range_succ]

/-- C8 counterexample: at the fitted phase φ = -π the adjusted phase is
-π, which lies outside [-π/2, π/2]. -/
theorem adjPhi_counterexample :
    ¬(-Real.pi / 2 ≤ adjPhi (-Real.pi) ∧ adjPhi (-Real.pi) ≤ Real.pi / 2) := by
  have hpi := Real.pi_pos
  have h1 : adjPhi (-Real.pi) = -Real.pi := by
    rw [adjPhi, if_neg (by linarith)]
    ring
  rw [h1]
  intro hcon
  linarith [hcon.1]

/-- C8 amended: for every fitted phase φ in [-π/2, 3π/2], the adjusted
phase φ - π·[φ > π/2] lies within [-π/2, π/2]; for phases outside that
interval the adjustment does not bring them into range. -/
theorem adjPhi_within_halfpi (phi : ℝ) (hlo : -Real.pi / 2 ≤ phi)
    (hhi : phi ≤ 3 * Real.pi / 2) :
    -Real.pi / 2 ≤ adjPhi phi ∧ adjPhi phi ≤ Real.pi / 2 := by
  rw [adjPhi]
  by_cases hc : phi > Real.pi / 2
  · rw [if_pos hc]
    simp only [mul_one]
    constructor <;> linarith
  · rw [if_neg hc]
    push_neg at hc
    simp only [mul_zero, sub_zero]
    exact ⟨hlo, hc⟩

/-- C4: the calibration factor for the E→F pi pulse equals
(π − φ′) / (2π·f) with φ′ the fitted phase after subtracting π when it
exceeds π/2, and the candidate new amplitude is the original operation
amplitude times this factor. -/
theorem factor_eq_spec (f phi amp : ℝ) :
    factor f phi =
      (Real.pi - (if phi > Real.pi / 2 then phi - Real.pi else phi)) /
        (2 * Real.pi * f) ∧
    new_pi_amp amp f phi = amp * factor f phi := by
  constructor
  · rw [factor, adjPhi]
    by_cases hc : phi > Real.pi / 2
    · rw [if_pos hc, if_pos hc]
      norm_num
    · rw [if_neg hc, if_neg hc]
      norm_num
  · rfl

/-- C3: the stored Pi_amplitude is the candidate amplitude `new_pi_amp`
whenever its absolute value is below 0.3, and exactly 0.3 otherwise. -/
theorem piAmplitude_clamp (amp f phi : ℝ) :
    (|new_pi_amp amp f phi| < 0.3 →
      piAmplitude amp f phi = new_pi_amp amp f phi) ∧
    (0.3 ≤ |new_pi_amp amp f phi| → piAmplitude amp f phi = 0.3) := by
  constructor
  · intro h
    rw [piAmplitude, if_pos h]
  · intro h
    rw [piAmplitude, if_neg (not_lt.mpr h)]

/-- Witness for `piAmplitude_clamp`: at amp = 0 the candidate amplitude is
0 and kept; at amp = 2, f = 1, φ = 0 the candidate amplitude is 1 and gets
clamped to 0.3. -/
theorem piAmplitude_clamp_witness :
    (|new_pi_amp 0 1 0| < 0.3 ∧ piAmplitude 0 1 0 = new_pi_amp 0 1 0) ∧
    (0.3 ≤ |new_pi_amp 2 1 0| ∧ piAmplitude 2 1 0 = 0.3) := by
  have hπ := Real.pi_ne_zero
  have hng : ¬((0:ℝ) > Real.pi / 2) := by
    push_neg
    linarith [Real.pi_pos]
  have hf : factor 1 0 = 1/2 := by
    rw [factor, adjPhi, if_neg hng]
    field_simp
    ring
  have h0 : new_pi_amp 0 1 0 = 0 := by
    rw [new_pi_amp]
    ring
  have h2 : new_pi_amp 2 1 0 = 1 := by
    rw [new_pi_amp, hf]
    norm_num
  have ha : |new_pi_amp 0 1 0| < 0.3 := by
    rw [h0]
    norm_num
  have hb : (0.3:ℝ) ≤ |new_pi_amp 2 1 0| := by
    rw [h2]
    norm_num
  exact ⟨⟨ha, (piAmplitude_clamp 0 1 0).1 ha⟩,
         ⟨hb, (piAmplitude_clamp 2 1 0).2 hb⟩⟩

/-- C2 counterexample: two datasets with the same qubit pair but different
raw I/Q traces produce identical fit results, so the fit results contain
nothing extracted from the raw measurement traces — in particular no pulse
amplitude and no phase (the `FitParameters` record holds only a success
flag). -/
theorem fit_raw_data_counterexample :
    (Dataset.mk [(("I_control"), [0])] [("qA-qB")]).dataVars ≠
      (Dataset.mk [(("I_control"), [1])] [("qA-qB")]).dataVars ∧
    (fit_raw_data (Dataset.mk [(("I_control"), [0])] [("qA-qB")])).2 =
      (fit_raw_data (Dataset.mk [(("I_control"), [1])] [("qA-qB")])).2 := by
  constructor
  · simp
  · rfl

/-- C2 amended: `fit_raw_data` (via `_extract_relevant_fit_parameters`)
returns, for every qubit pair, a fit-result record containing only a
success flag set to True; no pulse amplitude or phase is extracted. The
returned dataset is the input dataset augmented with the bloch-transformed
state variables. -/
theorem fit_raw_data_only_success (ds : Dataset) :
    (fit_raw_data ds).2 =
      ds.qubitPairs.map (fun qp => (qp, FitParameters.mk true)) ∧
    (fit_raw_data ds).1 = assignBloch ds :=
  ⟨rfl, rfl⟩

/-- C9: the analysis reports success = True for every qubit pair,
regardless of the input dataset: a failed fit is never reported. -/
theorem fit_raw_data_always_success (ds : Dataset) :
    ((fit_raw_data ds).2.all (fun p => p.2.success)) = true := by
  simp [fit_raw_data, _extract_relevant_fit_parameters, List.all_map,
    Function.comp]

/-- `buffer` peels off one full chunk. -/
lemma buffer_cons (k : ℕ) (hk : k ≠ 0) (row rest : List ℚ)
    (hrow : row.length = k) :
    buffer k (row ++ rest) = row :: buffer k rest := by
  have hne : row ++ rest ≠ [] := by
    intro hcon
    rw [List.append_eq_nil] at hcon
    exact hk (by rw [← hrow, hcon.1]; rfl)
  rw [buffer, dif_neg (by push_neg; exact ⟨hk, hne⟩)]
  congr 1
  · rw [← hrow]
    exact List.take_left row rest
  · congr 1
    rw [← hrow]
    exact List.drop_left row rest

/-- `buffer k` inverts flattening of a list of rows of length `k`. -/
lemma buffer_flatten (k : ℕ) (hk : k ≠ 0) (rows : List (List ℚ))
    (hrows : ∀ r ∈ rows, r.length = k) :
    buffer k rows.flatten = rows := by
  induction rows with
  | nil =>
    rw [List.flatten_nil, buffer]
    simp
  | cons r tl ih =>
    rw [List.flatten_cons,
      buffer_cons k hk r tl.flatten (hrows r (List.mem_cons_self r tl)),
      ih (fun s hs => hrows s (List.mem_cons_of_mem r hs))]

/-- Reading position `j < K` of a mapped range. -/
lemma getD_map_range (f : ℕ → ℚ) (K j : ℕ) (hj : j < K) :
    ((List.range K).map f).getD j 0 = f j := by
  rw [List.getD, List.get?_map, List.get?_range hj]
  rfl

/-- `averageBuffers` on a nonempty list of rows of uniform length `K`:
one output per position, the mean of that position over all rows. -/
lemma averageBuffers_eq (rows : List (List ℚ)) (K : ℕ) (hne : rows ≠ [])
    (hrows : ∀ r ∈ rows, r.length = K) :
    averageBuffers rows =
      (List.range K).map
        (fun j =>
          (rows.map (fun row => row.getD j 0)).sum / (rows.length : ℚ)) := by
  cases rows with
  | nil => exact absurd rfl hne
  | cons r tl =>
    rw [averageBuffers, hrows r (List.mem_cons_self r tl)]

/-- C7: the raw stream, fed one save per amplitude point with the
averaging loop outermost, is buffered into per-repetition rows of one
value per sweep point and averaged element-wise, so the processed trace
holds, for each of the `K` swept amplitudes, the mean of the `N = n_avg`
repetitions; moreover each amplitude-point body performs exactly one
`save(I, I_st)`. -/
theorem stream_processing_averages (N K : ℕ) (v : ℕ → ℕ → ℚ) (hN : 0 < N)
    (hK : K ≠ 0) :
    averageBuffers (buffer K (streamOrder N K v)) =
      (List.range K).map
        (fun j => ((List.range N).map (fun n => v n j)).sum / (N : ℚ)) ∧
    ∀ (q : QubitCfg) (operation : String) (a : ℚ) (therm : ℕ),
      countSaveI (ampPointBody q operation a therm) = 1 := by
  refine ⟨?_, fun _ _ _ _ => rfl⟩
  rw [streamOrder, buffer_flatten K hK _ (by
    intro r hr
    rcases List.mem_map.mp hr with ⟨n, _, rfl⟩
    simp)]
  rw [averageBuffers_eq _ K (by
    intro hcon
    rw [List.map_eq_nil_iff, List.range_eq_nil] at hcon
    omega) (by
    intro r hr
    rcases List.mem_map.mp hr with ⟨n, _, rfl⟩
    simp)]
  apply List.map_congr_left
  intro j hj
  rw [List.mem_range] at hj
  rw [List.length_map, List.length_range, List.map_map]
  congr 1
  refine congrArg List.sum (List.map_congr_left fun n _ => ?_)
  exact getD_map_range (v n) K j hj

/-- Witness for `stream_processing_averages` at `N = 2` repetitions and
`K = 2` sweep points. -/
theorem stream_processing_averages_witness :
    ((0:ℕ) < 2 ∧ (2:ℕ) ≠ 0) ∧
    (averageBuffers (buffer 2 (streamOrder 2 2 (fun n j => (n : ℚ) + (j : ℚ)))) =
      (List.range 2).map
        (fun j =>
          ((List.range 2).map (fun n => ((n : ℚ) + (j : ℚ)))).sum / ((2:ℕ) : ℚ)) ∧
    ∀ (q : QubitCfg) (operation : String) (a : ℚ) (therm : ℕ),
      countSaveI (ampPointBody q operation a therm) = 1) :=
  ⟨⟨by norm_num, by norm_num⟩,
   stream_processing_averages 2 2 (fun n j => (n : ℚ) + (j : ℚ))
     (by norm_num) (by norm_num)⟩

/-- Witness for `adjPhi_within_halfpi` at φ = 0. -/
theorem adjPhi_within_halfpi_witness :
    (-Real.pi / 2 ≤ (0:ℝ) ∧ (0:ℝ) ≤ 3 * Real.pi / 2) ∧
      (-Real.pi / 2 ≤ adjPhi 0 ∧ adjPhi 0 ≤ Real.pi / 2) := by
  have h1 : -Real.pi / 2 ≤ (0:ℝ) := by linarith [Real.pi_pos]
  have h2 : (0:ℝ) ≤ 3 * Real.pi / 2 := by linarith [Real.pi_pos]
  exact ⟨⟨h1, h2⟩, adjPhi_within_halfpi 0 h1 h2⟩
